import Mathlib

/-!
Verification of the resilient DOM-traversal and interaction engine of the
Thinkific course-scraper extension.

Strings are modelled as lists of Unicode code points (`Str := List Nat`);
JavaScript's `\s` character class is modelled by the common ASCII whitespace
code points, and `toLowerCase` by ASCII case folding, which is exact on the
selector keywords and messages the program manipulates.  The DOM is modelled
abstractly: a query context maps a selector either to its (ordered) match
list or to a thrown exception, and the interaction loop's per-lesson DOM work
(locating a card, waiting for the editor, extracting text) is abstracted as
an environment assigning each lesson iteration its observed outcome, exactly
mirroring the branch structure of `clickThroughAndScrapeCourse` in popup.js.
-/

namespace ThinkificScraper

/-- Model of JavaScript strings: a list of Unicode code points. -/
abbrev Str := List Nat

/-- Embed a Lean string literal as a code-point list. -/
def strC (s : String) : Str := s.data.map Char.toNat

/-- Model of the `\s` regexp class / `String.prototype.trim` whitespace set
(space, tab, LF, CR, VT, FF). -/
def isWsB (c : Nat) : Bool :=
  c == 32 || c == 9 || c == 10 || c == 13 || c == 11 || c == 12

/-- Model of `toLowerCase` on a single code point (ASCII case folding). -/
def lowerCh (c : Nat) : Nat := if 65 ≤ c ∧ c ≤ 90 then c + 32 else c

/-- Model of `String.prototype.toLowerCase`. -/
def lowerStr (s : Str) : Str := s.map lowerCh

/-- Drop the trailing run of whitespace characters. -/
def dropTrailingWs : Str → Str
  | [] => []
  | c :: t =>
    match dropTrailingWs t with
    | [] => if isWsB c then [] else [c]
    | r => c :: r

/-- Model of `String.prototype.trim`: drop leading and trailing whitespace. -/
def trimStr (s : Str) : Str := dropTrailingWs (s.dropWhile isWsB)

/-- Model of `replace(/\s+/g, ' ')`: every maximal whitespace run becomes one
space.  The flag records whether the previous character was whitespace (in
which case further whitespace is absorbed into the already-emitted space). -/
def collapseAux : Bool → Str → Str
  | _, [] => []
  | prevWs, c :: t =>
    if isWsB c then
      if prevWs then collapseAux true t
      else 32 :: collapseAux true t
    else c :: collapseAux false t

/-- `normalizeText` from popup.js (`clickThroughAndScrapeCourse`):
`text.trim().replace(/\s+/g, ' ').toLowerCase()`. -/
def normalizeText (s : Str) : Str := lowerStr (collapseAux false (trimStr s))

/-- The local `normalize` helper inside `waitForLessonLoaded`:
`(s || '').trim().replace(/\s+/g, ' ')` — note: no case folding. -/
def normalizeWait (s : Str) : Str := collapseAux false (trimStr s)

/-- Model of `String.prototype.includes` (substring containment). -/
def containsStr (hay needle : Str) : Bool := decide (needle <:+: hay)

/-- Decimal rendering of a natural number, for `Chapter ${n}` / `Lesson ${n}`
template strings. -/
def natToStr (n : Nat) : Str := (Nat.toDigits 10 n).map Char.toNat

/-- Specification-side helper: the maximal non-whitespace runs of a string,
in order.  Two strings differ only in whitespace runs iff their `wordsOf`
agree. -/
def wordsOf : Str → List Str
  | [] => []
  | c :: t =>
    if isWsB c then wordsOf t
    else (c :: t.takeWhile (fun d => !isWsB d)) :: wordsOf (t.dropWhile (fun d => !isWsB d))
termination_by s => s.length
decreasing_by
  · simp only [List.length_cons]; omega
  · simp only [List.length_cons]
    exact Nat.lt_succ_of_le (List.dropWhile_sublist _).length_le

/-- Specification-side helper: join words with single spaces. -/
def joinWords : List Str → Str
  | [] => []
  | [w] => w
  | w :: ws => w ++ 32 :: joinWords ws

/-! ### Selector resolution (selectors.js) -/

/-- Abstract DOM query context: a selector either yields its ordered match
list (`querySelectorAll`; `querySelector` is its head) or throws. -/
structure DomCtx (σ ε : Type) where
  query : σ → Except Unit (List ε)

/-- `findElement` from selectors.js: try selectors in order, return the first
single match; a throwing selector is caught and skipped. -/
def findElement {σ ε : Type} (selectorArray : List σ) (context : DomCtx σ ε) : Option ε :=
  match selectorArray with
  | [] => none
  | sel :: rest =>
    match context.query sel with
    | .error _ => findElement rest context
    | .ok elems =>
      match elems.head? with
      | some e => some e
      | none => findElement rest context

/-- `findElements` from selectors.js: try selectors in order, return all
matches of the first selector that yields at least one; a throwing selector
is caught and skipped; `[]` if every selector yields nothing or throws. -/
def findElements {σ ε : Type} (selectorArray : List σ) (context : DomCtx σ ε) : List ε :=
  match selectorArray with
  | [] => []
  | sel :: rest =>
    match context.query sel with
    | .error _ => findElements rest context
    | .ok [] => findElements rest context
    | .ok (e :: es) => e :: es

/-- A selector succeeds in a context when its query returns a nonempty list. -/
def selSucceeds {σ ε : Type} (context : DomCtx σ ε) (sel : σ) : Bool :=
  match context.query sel with
  | .ok (_ :: _) => true
  | _ => false

/-! ### Lesson type detection (selectors.js `detectLessonType`) -/

/-- Icon element resolved by `findElement(SELECTORS.lessonIcon, node)`:
the two properties `detectLessonType` reads. -/
structure IconEl where
  outerHTML : Str
  className : Str
deriving DecidableEq, Repr

/-- A lesson-card element, carrying exactly what the scraper reads from it:
the resolved title text, the resolved icon element (if any), and its own
serialized markup. -/
structure LessonCardEl where
  titleEl : Option Str
  icon : Option IconEl
  outerHTML : Str
deriving DecidableEq, Repr

/-- `detectLessonType` from selectors.js, translated branch for branch. -/
def detectLessonType (lessonElement : LessonCardEl) : Str :=
  match lessonElement.icon with
  | none => strC "unknown"
  | some iconElement =>
    let iconHTML := lowerStr iconElement.outerHTML
    let iconClasses := lowerStr iconElement.className
    if containsStr iconHTML (strC "video") || containsStr iconHTML (strC "play") ||
        containsStr iconClasses (strC "video") || containsStr iconClasses (strC "play") then
      strC "video"
    else if containsStr iconHTML (strC "text") || containsStr iconHTML (strC "document") ||
        containsStr iconHTML (strC "file-text") || containsStr iconClasses (strC "text") ||
        containsStr iconClasses (strC "document") then
      strC "text"
    else if containsStr iconHTML (strC "quiz") || containsStr iconHTML (strC "question") ||
        containsStr iconHTML (strC "test") || containsStr iconClasses (strC "quiz") ||
        containsStr iconClasses (strC "question") then
      strC "quiz"
    else if containsStr iconHTML (strC "download") || containsStr iconHTML (strC "arrow-down") ||
        containsStr iconClasses (strC "download") then
      strC "download"
    else
      let lessonHTML := lowerStr lessonElement.outerHTML
      if containsStr lessonHTML (strC "type=\"video\"") ||
          containsStr lessonHTML (strC "data-type=\"video\"") then
        strC "video"
      else if containsStr lessonHTML (strC "type=\"text\"") ||
          containsStr lessonHTML (strC "data-type=\"text\"") then
        strC "text"
      else
        strC "unknown"

/-- Specification-side: the icon keyword cascade of `detectLessonType`, as a
partial classification (`none` = no keyword family matches). -/
def iconKeyword (ic : IconEl) : Option Str :=
  let iconHTML := lowerStr ic.outerHTML
  let iconClasses := lowerStr ic.className
  if containsStr iconHTML (strC "video") || containsStr iconHTML (strC "play") ||
      containsStr iconClasses (strC "video") || containsStr iconClasses (strC "play") then
    some (strC "video")
  else if containsStr iconHTML (strC "text") || containsStr iconHTML (strC "document") ||
      containsStr iconHTML (strC "file-text") || containsStr iconClasses (strC "text") ||
      containsStr iconClasses (strC "document") then
    some (strC "text")
  else if containsStr iconHTML (strC "quiz") || containsStr iconHTML (strC "question") ||
      containsStr iconHTML (strC "test") || containsStr iconClasses (strC "quiz") ||
      containsStr iconClasses (strC "question") then
    some (strC "quiz")
  else if containsStr iconHTML (strC "download") || containsStr iconHTML (strC "arrow-down") ||
      containsStr iconClasses (strC "download") then
    some (strC "download")
  else
    none

/-- Specification-side: the fallback scan of the lesson node's own markup for
explicit type attributes. -/
def typeAttrScan (html : Str) : Str :=
  let lessonHTML := lowerStr html
  if containsStr lessonHTML (strC "type=\"video\"") ||
      containsStr lessonHTML (strC "data-type=\"video\"") then
    strC "video"
  else if containsStr lessonHTML (strC "type=\"text\"") ||
      containsStr lessonHTML (strC "data-type=\"text\"") then
    strC "text"
  else
    strC "unknown"

/-! ### Deduplication (lesson-scraper.js) -/

/-- A video-source record (`{url, type, provider?, filename?}`). -/
structure SourceInfo where
  url : Str
  stype : Str
  provider : Option Str
  filename : Option Str
deriving DecidableEq, Repr

/-- A downloadable-file record. -/
structure FileInfo where
  url : Str
  filename : Str
  fileType : Str
  linkText : Str
  isAwsS3 : Bool
deriving DecidableEq, Repr

/-- The `seen`-set filter shared by `removeDuplicateSources` and
`removeDuplicateFiles`: keep a record iff its url has not been seen yet. -/
def dedupeByUrl {α : Type} (key : α → Str) : List Str → List α → List α
  | _, [] => []
  | seen, r :: rest =>
    if key r ∈ seen then dedupeByUrl key seen rest
    else r :: dedupeByUrl key (key r :: seen) rest

/-- `removeDuplicateSources` from lesson-scraper.js. -/
def removeDuplicateSources (sources : List SourceInfo) : List SourceInfo :=
  dedupeByUrl (fun s => s.url) [] sources

/-- `removeDuplicateFiles` from lesson-scraper.js. -/
def removeDuplicateFiles (files : List FileInfo) : List FileInfo :=
  dedupeByUrl (fun f => f.url) [] files

/-! ### Load-wait polling (popup.js `waitForLessonLoaded`) -/

/-- One poll iteration of `waitForLessonLoaded`: `obs i` is the text content
of the editor-title element found at poll `i` (`none` when no selector
matched an element).  Success at the first poll whose normalized text equals
the normalized expected title; `fuel` is the number of polls the bounded
timeout allows. -/
def waitAux (obs : Nat → Option Str) (expected : Str) : Nat → Nat → Bool
  | _, 0 => false
  | i, fuel + 1 =>
    match obs i with
    | some t =>
      if normalizeWait t = normalizeWait expected then true
      else waitAux obs expected (i + 1) fuel
    | none => waitAux obs expected (i + 1) fuel

/-- `waitForLessonLoaded` from popup.js, as a function of the polling trace. -/
def waitForLessonLoaded (obs : Nat → Option Str) (expected : Str) (fuel : Nat) : Bool :=
  waitAux obs expected 0 fuel

/-! ### The interaction loop (popup.js `clickThroughAndScrapeCourse`) -/

/-- A chapter container element as the plan builder reads it. -/
structure ChapterElem where
  titleEl : Option Str
  cards : List LessonCardEl
deriving DecidableEq, Repr

/-- The page the scraper runs against. -/
structure Page where
  courseTitle : Str
  curriculumUrl : Str
  chapterElems : List ChapterElem
deriving DecidableEq, Repr

/-- A lesson entry of the plan / result tree (the object literal pushed in
the plan-build loop, later mutated in place by the interaction loop). -/
structure LessonResult where
  chapterIndex : Nat
  lessonIndex : Nat
  title : Str
  ltype : Str
  content : Option Str
  textContent : Option Str
  plainTextContent : Option Str
  error : Option Str
deriving DecidableEq, Repr

/-- A chapter of the plan / result tree. -/
structure ChapterRes where
  chapterTitle : Str
  chapterIndex : Nat
  lessons : List LessonResult
deriving DecidableEq, Repr

/-- Messages sent to the popup via `chrome.runtime.sendMessage`. -/
inductive Event where
  | init (totalLessons : Nat)
  | progress (completed totalLessons : Nat) (lessonTitle : Str)
  | cancelledMsg (completed totalLessons : Nat)
  | doneMsg (completed totalLessons : Nat)
deriving DecidableEq, Repr

/-- Recognize a `tcs-progress` message. -/
def isProgressEvent : Event → Bool
  | .progress _ _ _ => true
  | _ => false

/-- The observed outcome of one lesson iteration of the interaction loop:
either the card could not be located in the live DOM, or the editor never
showed the lesson within the timeout, or `extractLessonText` returned a
result / null, or the iteration threw (caught by the per-lesson catch). -/
inductive Outcome where
  | locateFail
  | loadTimeout
  | extractOk (html plainText : Str)
  | extractFail
  | thrown (msg : Str)
deriving DecidableEq, Repr

/-- JavaScript `s || null` on a string value. -/
def orNull (s : Str) : Option Str := if s = [] then none else some s

/-- `lessonTitleEl?.textContent.trim() || fallback`. -/
def titleOrFallback (t : Option Str) (fb : Str) : Str :=
  match t with
  | none => fb
  | some t0 => let tr := trimStr t0; if tr = [] then fb else tr

/-- Build one plan lesson (plan-build loop body, popup.js). -/
def buildLesson (ci li : Nat) (card : LessonCardEl) : LessonResult :=
  { chapterIndex := ci
    lessonIndex := li
    title := titleOrFallback card.titleEl (strC "Lesson " ++ natToStr (li + 1))
    ltype := detectLessonType card
    content := none
    textContent := none
    plainTextContent := none
    error := none }

/-- Build the plan lessons of one chapter. -/
def buildLessons (ci : Nat) : Nat → List LessonCardEl → List LessonResult
  | _, [] => []
  | li, card :: rest => buildLesson ci li card :: buildLessons ci (li + 1) rest

/-- Build the plan chapters. -/
def buildChaptersAux : Nat → List ChapterElem → List ChapterRes
  | _, [] => []
  | ci, ch :: rest =>
    { chapterTitle := titleOrFallback ch.titleEl (strC "Chapter " ++ natToStr (ci + 1))
      chapterIndex := ci
      lessons := buildLessons ci 0 ch.cards } :: buildChaptersAux (ci + 1) rest

/-- The course plan built once from the curriculum page. -/
def buildChapters (chapterElems : List ChapterElem) : List ChapterRes :=
  buildChaptersAux 0 chapterElems

/-- `totalLessons` counted during plan build. -/
def totalOf (page : Page) : Nat :=
  (page.chapterElems.map (fun ch => ch.cards.length)).sum

/-- The cooperative cancellation flag `window.__TCS_CANCELLED`, observed once
at the top of each lesson iteration: `cancelFrom = some k` means the flag
reads true at the k-th check (0-based) and at every later one (the flag is
only ever set, never cleared). -/
def checkCancel (cancelFrom : Option Nat) (i : Nat) : Bool :=
  match cancelFrom with
  | none => false
  | some k => decide (k ≤ i)

/-- Whether an outcome reaches the extraction step (only then does the loop
increment `completed` and send a progress message). -/
def outcomeCompletes : Outcome → Bool
  | .extractOk _ _ => true
  | .extractFail => true
  | _ => false

/-- The in-place mutation of one lesson's result fields by its iteration. -/
def lessonUpdate (o : Outcome) (l : LessonResult) : LessonResult :=
  match o with
  | .locateFail =>
    { l with content := none, textContent := none, plainTextContent := none
             error := some (strC "Could not find lesson card in DOM") }
  | .loadTimeout =>
    { l with content := none, textContent := none, plainTextContent := none
             error := some (strC "Lesson did not load in editor panel (timeout)") }
  | .extractOk h p =>
    { l with content := orNull h, textContent := orNull p, plainTextContent := orNull p }
  | .extractFail =>
    { l with content := none, textContent := none, plainTextContent := none
             error := some (strC "Could not extract text from editor") }
  | .thrown m =>
    { l with content := none, textContent := none, plainTextContent := none
             error := some (if m = [] then strC "Unknown error" else m) }

/-- Number of completions (extraction reached) among the first `n` iterations
starting at global index `idx`. -/
def completedCount (env : Nat → Outcome) (idx : Nat) : Nat → Nat
  | 0 => 0
  | n + 1 =>
    (if outcomeCompletes (env idx) then 1 else 0) + completedCount env (idx + 1) n

/-- Result of running (part of) the loop. -/
structure FlatRes where
  lessons : List LessonResult
  idx : Nat
  completed : Nat
  cancelled : Bool
  events : List Event
deriving DecidableEq, Repr

/-- The inner per-lesson loop over one chapter's lessons (popup.js lines
758–907): check the cancellation flag, then locate / click / wait / extract,
record the outcome on the lesson, and send a progress message exactly when
extraction was reached. -/
def runFlat (env : Nat → Outcome) (cancelFrom : Option Nat) (total : Nat) :
    List LessonResult → Nat → Nat → FlatRes
  | [], idx, c => ⟨[], idx, c, false, []⟩
  | l :: rest, idx, c =>
    if checkCancel cancelFrom idx then
      ⟨l :: rest, idx, c, true, [Event.cancelledMsg c total]⟩
    else
      let o := env idx
      let l' := lessonUpdate o l
      let c' := if outcomeCompletes o then c + 1 else c
      let evs := if outcomeCompletes o then [Event.progress c' total l.title] else []
      let r := runFlat env cancelFrom total rest (idx + 1) c'
      ⟨l' :: r.lessons, r.idx, r.completed, r.cancelled, evs ++ r.events⟩

/-- Result of running the outer loop over chapters. -/
structure ChapsRes where
  chapters : List ChapterRes
  idx : Nat
  completed : Nat
  cancelled : Bool
  events : List Event
deriving DecidableEq, Repr

/-- The outer loop over chapters: `if (cancelled) break`. -/
def runChapters (env : Nat → Outcome) (cancelFrom : Option Nat) (total : Nat) :
    List ChapterRes → Nat → Nat → ChapsRes
  | [], idx, c => ⟨[], idx, c, false, []⟩
  | ch :: rest, idx, c =>
    let r := runFlat env cancelFrom total ch.lessons idx c
    if r.cancelled then
      ⟨{ ch with lessons := r.lessons } :: rest, r.idx, r.completed, true, r.events⟩
    else
      let r2 := runChapters env cancelFrom total rest r.idx r.completed
      ⟨{ ch with lessons := r.lessons } :: r2.chapters, r2.idx, r2.completed,
        r2.cancelled, r.events ++ r2.events⟩

/-- The final course data object returned by `clickThroughAndScrapeCourse`
(`extractedAt` — a wall-clock timestamp — is not modelled). -/
structure ResultDoc where
  cancelled : Bool
  courseTitle : Str
  curriculumUrl : Str
  totalChapters : Nat
  totalLessons : Nat
  chapters : List ChapterRes
deriving DecidableEq, Repr

/-- Return value of a run together with its observable message trace and the
final `completed` counter. -/
structure RunOutput where
  doc : ResultDoc
  completed : Nat
  events : List Event
deriving DecidableEq, Repr

/-- The fatal error thrown when no chapter containers resolve, as rethrown by
the outer catch. -/
def fatalNoChapters : Str :=
  strC "Course scraping failed: No chapters found. Make sure you are on the curriculum page."

/-- The non-fatal path of `clickThroughAndScrapeCourse`: build the plan, send
the init message, run the cancellable interaction loop over it, send the done
message unless cancelled, and assemble the final data. -/
def runBody (page : Page) (env : Nat → Outcome) (cancelFrom : Option Nat) : RunOutput :=
  let chapters := buildChapters page.chapterElems
  let total := totalOf page
  let r := runChapters env cancelFrom total chapters 0 0
  { doc := { cancelled := r.cancelled
             courseTitle := page.courseTitle
             curriculumUrl := page.curriculumUrl
             totalChapters := r.chapters.length
             totalLessons := total
             chapters := r.chapters }
    completed := r.completed
    events :=
      Event.init total :: r.events ++ (if r.cancelled then [] else [Event.doneMsg r.completed total]) }

/-- `clickThroughAndScrapeCourse` from popup.js: throw the fatal error if zero
chapter containers resolve, otherwise run the interaction loop and return the
final data. -/
def clickThroughAndScrapeCourse (page : Page) (env : Nat → Outcome)
    (cancelFrom : Option Nat) : Except Str RunOutput :=
  if page.chapterElems.isEmpty then
    .error fatalNoChapters
  else
    .ok (runBody page env cancelFrom)

/-- All lessons of a chapter list, in plan order. -/
def flatLessons (chs : List ChapterRes) : List LessonResult :=
  (chs.map (fun ch => ch.lessons)).flatten

/-! ### Concrete fixtures used to evaluate the model -/

/-- A query context where the first selector throws, the second matches
nothing and the third matches two elements. -/
def ctxA : DomCtx Nat Nat :=
  ⟨fun sel => if sel = 0 then .error () else if sel = 1 then .ok [] else .ok [7, 8]⟩

/-- A query context where selector 5 throws and selector 6 matches. -/
def ctxB : DomCtx Nat Nat :=
  ⟨fun sel => if sel = 5 then .error () else if sel = 6 then .ok [3, 4] else .ok []⟩

/-- A plain lesson card with the given title and no icon. -/
def plainCard (t : String) : LessonCardEl :=
  { titleEl := some (strC t), icon := none, outerHTML := [] }

/-- One chapter of five lessons. -/
def scenarioPage : Page :=
  { courseTitle := strC "Course"
    curriculumUrl := strC "https://example.test/curriculum"
    chapterElems := [{ titleEl := some (strC "Chapter One")
                       cards := [plainCard "L1", plainCard "L2", plainCard "L3",
                                 plainCard "L4", plainCard "L5"] }] }

/-- Every lesson iteration succeeds and extracts nonempty content. -/
def scenarioEnv : Nat → Outcome := fun _ => .extractOk (strC "<p>body</p>") (strC "body")

/-- A page with a single lesson. -/
def onePage : Page :=
  { courseTitle := strC "C", curriculumUrl := strC "u"
    chapterElems := [{ titleEl := some (strC "Ch"), cards := [plainCard "Solo"] }] }

/-- A page with two lessons in one chapter. -/
def twoPage : Page :=
  { courseTitle := strC "C", curriculumUrl := strC "u"
    chapterElems := [{ titleEl := some (strC "Ch"), cards := [plainCard "A", plainCard "B"] }] }

/-- A page with no chapter containers. -/
def emptyPage : Page :=
  { courseTitle := strC "C", curriculumUrl := strC "u", chapterElems := [] }

/-- Every lesson iteration fails to locate its card. -/
def locateFailEnv : Nat → Outcome := fun _ => .locateFail

/-- The first lesson fails to locate, the rest extract successfully. -/
def mixedEnv : Nat → Outcome :=
  fun i => if i = 0 then .locateFail else .extractOk (strC "x") (strC "x")

/-- The first lesson times out waiting for the editor, the rest succeed. -/
def timeoutEnv : Nat → Outcome :=
  fun i => if i = 0 then .loadTimeout else .extractOk (strC "x") (strC "x")

/-- An icon whose markup and class list match no keyword family. -/
def plainIcon : IconEl := { outerHTML := strC "<svg class=\"c1\"></svg>", className := strC "c1" }

/-- A card with a keyword-free icon and an explicit type attribute in its own
markup. -/
def attrCard : LessonCardEl :=
  { titleEl := none, icon := some plainIcon, outerHTML := strC "<div data-type=\"video\"></div>" }

/-- A card with no icon but an explicit type attribute in its own markup. -/
def noIconCard : LessonCardEl :=
  { titleEl := none, icon := none, outerHTML := strC "<div data-type=\"video\"></div>" }

/-! ## Selector resolution: `findOne` / `findAll` (claims C4 and C6) -/

theorem selSucceeds_iff {σ ε : Type} (ctx : DomCtx σ ε) (sel : σ) :
    selSucceeds ctx sel = true ↔ ∃ e es, ctx.query sel = .ok (e :: es) := by
  unfold selSucceeds
  cases h : ctx.query sel with
  | error u => simp
  | ok l =>
    cases l with
    | nil => simp
    | cons e es => simp

/-- C4: `findAll` (`findElements`) returns exactly the matches of the first
selector in list order that yields at least one match — it never unions
matches from two different selectors and never continues past the first
success — and returns an empty sequence when every selector yields nothing
or throws. -/
theorem findElements_first_matching_selector {σ ε : Type} (sels : List σ) (ctx : DomCtx σ ε) :
    (∀ sel, sels.find? (selSucceeds ctx) = some sel →
        ctx.query sel = .ok (findElements sels ctx) ∧ findElements sels ctx ≠ []) ∧
    (sels.find? (selSucceeds ctx) = none → findElements sels ctx = []) := by
  induction sels with
  | nil => exact ⟨fun sel h => by simp at h, fun _ => rfl⟩
  | cons s rest ih =>
    by_cases hs : selSucceeds ctx s = true
    · obtain ⟨e, es, hq⟩ := (selSucceeds_iff ctx s).mp hs
      constructor
      · intro sel hfind
        rw [List.find?_cons_of_pos _ hs] at hfind
        injection hfind with hsel
        subst hsel
        simp [findElements, hq]
      · intro hfind
        rw [List.find?_cons_of_pos _ hs] at hfind
        cases hfind
    · have hred : findElements (s :: rest) ctx = findElements rest ctx := by
        cases hq : ctx.query s with
        | error u => simp [findElements, hq]
        | ok l =>
          cases l with
          | nil => simp [findElements, hq]
          | cons e es => exact absurd ((selSucceeds_iff ctx s).mpr ⟨e, es, hq⟩) hs
      constructor
      · intro sel hfind
        rw [List.find?_cons_of_neg _ hs] at hfind
        rw [hred]
        exact ih.1 sel hfind
      · intro hfind
        rw [List.find?_cons_of_neg _ hs] at hfind
        rw [hred]
        exact ih.2 hfind

/-- Witness for C4 at a concrete context: the throwing selector 0 and the
empty-match selector 1 are skipped, and the result is exactly selector 2's
match list. -/
theorem findElements_first_matching_selector_witness :
    List.find? (selSucceeds ctxA) [0, 1, 2] = some 2 ∧
    ctxA.query 2 = .ok (findElements [0, 1, 2] ctxA) ∧ findElements [0, 1, 2] ctxA ≠ [] :=
  ⟨rfl, (findElements_first_matching_selector [0, 1, 2] ctxA).1 2 rfl⟩

/-- C6: `findOne` (`findElement`) tries the selectors in listed order and
returns the first element matched by any selector, or `none` if none
matches; a throwing selector is caught and skipped and does not abort
resolution of the remaining selectors. -/
theorem findElement_first_matching_selector {σ ε : Type} (sels : List σ) (ctx : DomCtx σ ε) :
    (∀ sel, sels.find? (selSucceeds ctx) = some sel →
        ∃ e es, ctx.query sel = .ok (e :: es) ∧ findElement sels ctx = some e) ∧
    (sels.find? (selSucceeds ctx) = none → findElement sels ctx = none) := by
  induction sels with
  | nil => exact ⟨fun sel h => by simp at h, fun _ => rfl⟩
  | cons s rest ih =>
    by_cases hs : selSucceeds ctx s = true
    · obtain ⟨e, es, hq⟩ := (selSucceeds_iff ctx s).mp hs
      constructor
      · intro sel hfind
        rw [List.find?_cons_of_pos _ hs] at hfind
        injection hfind with hsel
        subst hsel
        exact ⟨e, es, hq, by simp [findElement, hq]⟩
      · intro hfind
        rw [List.find?_cons_of_pos _ hs] at hfind
        cases hfind
    · have hred : findElement (s :: rest) ctx = findElement rest ctx := by
        cases hq : ctx.query s with
        | error u => simp [findElement, hq]
        | ok l =>
          cases l with
          | nil => simp [findElement, hq]
          | cons e es => exact absurd ((selSucceeds_iff ctx s).mpr ⟨e, es, hq⟩) hs
      constructor
      · intro sel hfind
        rw [List.find?_cons_of_neg _ hs] at hfind
        rw [hred]
        exact ih.1 sel hfind
      · intro hfind
        rw [List.find?_cons_of_neg _ hs] at hfind
        rw [hred]
        exact ih.2 hfind

/-- Witness for C6 at a concrete context: selector 5 throws, is skipped, and
the first element of selector 6's matches is returned. -/
theorem findElement_first_matching_selector_witness :
    List.find? (selSucceeds ctxB) [5, 6] = some 6 ∧ findElement [5, 6] ctxB = some 3 := by
  refine ⟨rfl, ?_⟩
  obtain ⟨e, es, hq, hf⟩ := (findElement_first_matching_selector [5, 6] ctxB).1 6 rfl
  have h3 : some e = some 3 := by rw [← hf]; decide
  rw [hf, h3]

/-! ## Deduplication by url (claim C10) -/

theorem dedupeByUrl_sublist {α : Type} (key : α → Str) (seen : List Str) (l : List α) :
    List.Sublist (dedupeByUrl key seen l) l := by
  induction l generalizing seen with
  | nil => simp [dedupeByUrl]
  | cons r rest ih =>
    by_cases h : key r ∈ seen
    · simp only [dedupeByUrl, if_pos h]
      exact (ih seen).trans (List.sublist_cons_self r rest)
    · simp only [dedupeByUrl, if_neg h]
      exact (ih (key r :: seen)).cons₂ r

theorem dedupeByUrl_not_seen {α : Type} (key : α → Str) {seen : List Str} {l : List α}
    {r : α} (h : r ∈ dedupeByUrl key seen l) : key r ∉ seen := by
  induction l generalizing seen with
  | nil => simp [dedupeByUrl] at h
  | cons x rest ih =>
    by_cases hx : key x ∈ seen
    · rw [dedupeByUrl, if_pos hx] at h
      exact ih h
    · rw [dedupeByUrl, if_neg hx] at h
      rcases List.mem_cons.mp h with h | h
      · exact h ▸ hx
      · intro hc
        exact ih h (List.mem_cons_of_mem _ hc)

theorem dedupeByUrl_nodup_keys {α : Type} (key : α → Str) (seen : List Str) (l : List α) :
    ((dedupeByUrl key seen l).map key).Nodup := by
  induction l generalizing seen with
  | nil => simp [dedupeByUrl]
  | cons x rest ih =>
    by_cases hx : key x ∈ seen
    · simpa [dedupeByUrl, hx] using ih seen
    · simp only [dedupeByUrl, if_neg hx, List.map_cons, List.nodup_cons]
      refine ⟨?_, ih (key x :: seen)⟩
      intro hmem
      rcases List.mem_map.mp hmem with ⟨r, hr, hkr⟩
      exact dedupeByUrl_not_seen key hr (hkr ▸ List.mem_cons_self _ _)

theorem find?_cons_eq {β : Type} (p : β → Bool) (a : β) (l : List β) :
    (a :: l).find? p = if p a then some a else l.find? p := by
  by_cases h : p a = true
  · rw [List.find?_cons_of_pos _ h, if_pos h]
  · rw [List.find?_cons_of_neg _ h, if_neg h]

theorem countP_cons_eq {β : Type} (p : β → Bool) (a : β) (l : List β) :
    (a :: l).countP p = l.countP p + if p a then 1 else 0 := by
  simp [List.countP_cons]

theorem dedupeByUrl_countP_seen {α : Type} (key : α → Str) (u : Str) (l : List α) :
    ∀ seen : List Str, u ∈ seen →
      (dedupeByUrl key seen l).countP (fun r => key r == u) = 0 := by
  induction l with
  | nil => intro seen _; simp [dedupeByUrl]
  | cons x rest ih =>
    intro seen hu
    by_cases hx : key x ∈ seen
    · rw [dedupeByUrl, if_pos hx]
      exact ih seen hu
    · rw [dedupeByUrl, if_neg hx]
      have hxu : (key x == u) = false := by
        simp only [beq_eq_false_iff_ne, ne_eq]
        intro hc
        exact hx (hc ▸ hu)
      rw [countP_cons_eq (fun r => key r == u) x, ih (key x :: seen) (List.mem_cons_of_mem _ hu)]
      simp [hxu]

theorem dedupeByUrl_countP {α : Type} (key : α → Str) (u : Str) (l : List α) :
    ∀ seen : List Str, u ∉ seen →
      (dedupeByUrl key seen l).countP (fun r => key r == u) =
        min 1 (l.countP (fun r => key r == u)) := by
  induction l with
  | nil => intro seen _; simp [dedupeByUrl]
  | cons x rest ih =>
    intro seen hu
    by_cases hx : key x ∈ seen
    · have hxu : (key x == u) = false := by
        simp only [beq_eq_false_iff_ne, ne_eq]
        intro hc
        exact hu (hc ▸ hx)
      rw [dedupeByUrl, if_pos hx, countP_cons_eq (fun r => key r == u) x, ih seen hu]
      simp [hxu]
    · rw [dedupeByUrl, if_neg hx]
      by_cases hxu : key x = u
      · have hb : (key x == u) = true := by simp [hxu]
        rw [countP_cons_eq (fun r => key r == u) x, countP_cons_eq (fun r => key r == u) x,
          dedupeByUrl_countP_seen key u rest (key x :: seen) (hxu ▸ List.mem_cons_self _ _), hb]
        simp only [if_true]
        omega
      · have hb : (key x == u) = false := by simp [hxu]
        rw [countP_cons_eq (fun r => key r == u) x, countP_cons_eq (fun r => key r == u) x,
          ih (key x :: seen) (by
            intro hc
            rcases List.mem_cons.mp hc with hc | hc
            · exact hxu hc.symm
            · exact hu hc), hb]
        simp

theorem dedupeByUrl_find? {α : Type} (key : α → Str) (l : List α) :
    ∀ (seen : List Str) (u : Str), u ∉ seen →
      (dedupeByUrl key seen l).find? (fun r => key r == u) = l.find? (fun r => key r == u) := by
  induction l with
  | nil => intro seen u _; simp [dedupeByUrl]
  | cons x rest ih =>
    intro seen u hu
    by_cases hx : key x ∈ seen
    · have hxu : (key x == u) = false := by
        simp only [beq_eq_false_iff_ne, ne_eq]
        intro hc
        exact hu (hc ▸ hx)
      rw [dedupeByUrl, if_pos hx, find?_cons_eq (fun r => key r == u) x, ih seen u hu]
      simp [hxu]
    · rw [dedupeByUrl, if_neg hx]
      by_cases hxu : key x = u
      · have hb : (key x == u) = true := by simp [hxu]
        rw [find?_cons_eq (fun r => key r == u) x, find?_cons_eq (fun r => key r == u) x, hb]
        simp
      · have hb : (key x == u) = false := by simp [hxu]
        rw [find?_cons_eq (fun r => key r == u) x, find?_cons_eq (fun r => key r == u) x,
          ih (key x :: seen) u (by
            intro hc
            rcases List.mem_cons.mp hc with hc | hc
            · exact hxu hc.symm
            · exact hu hc), hb]

theorem dedupeByUrl_of_nodup {α : Type} (key : α → Str) (l : List α) :
    ∀ seen : List Str, (l.map key).Nodup → (∀ r ∈ l, key r ∉ seen) →
      dedupeByUrl key seen l = l := by
  induction l with
  | nil => intro seen _ _; rfl
  | cons x rest ih =>
    intro seen hnd hs
    have hx : key x ∉ seen := hs x (List.mem_cons_self _ _)
    rw [dedupeByUrl, if_neg hx]
    simp only [List.map_cons, List.nodup_cons] at hnd
    congr 1
    refine ih (key x :: seen) hnd.2 ?_
    intro r hr hc
    rcases List.mem_cons.mp hc with hc | hc
    · exact hnd.1 (List.mem_map.mpr ⟨r, hr, hc⟩)
    · exact hs r (List.mem_cons_of_mem _ hr) hc

/-- C10: `removeDuplicateSources` and `removeDuplicateFiles` keep exactly the
first occurrence of each url: every url of the input appears exactly once in
the output (the number of records carrying url `u` is `min 1` of the input's),
the record kept for a url is the input's first record with that url (`find?`
agrees with the input), the relative order of kept records is preserved
(the output is a sublist of the input), and both functions are idempotent. -/
theorem removeDuplicates_first_occurrence_by_url :
    (∀ l : List SourceInfo,
      List.Sublist (removeDuplicateSources l) l ∧
      (∀ u : Str, (removeDuplicateSources l).countP (fun r => r.url == u) =
          min 1 (l.countP (fun r => r.url == u))) ∧
      (∀ u : Str, (removeDuplicateSources l).find? (fun r => r.url == u) =
          l.find? (fun r => r.url == u)) ∧
      removeDuplicateSources (removeDuplicateSources l) = removeDuplicateSources l) ∧
    (∀ l : List FileInfo,
      List.Sublist (removeDuplicateFiles l) l ∧
      (∀ u : Str, (removeDuplicateFiles l).countP (fun r => r.url == u) =
          min 1 (l.countP (fun r => r.url == u))) ∧
      (∀ u : Str, (removeDuplicateFiles l).find? (fun r => r.url == u) =
          l.find? (fun r => r.url == u)) ∧
      removeDuplicateFiles (removeDuplicateFiles l) = removeDuplicateFiles l) := by
  constructor
  · intro l
    refine ⟨dedupeByUrl_sublist _ [] l, fun u => dedupeByUrl_countP _ u l [] (by simp),
      fun u => dedupeByUrl_find? _ l [] u (by simp), ?_⟩
    exact dedupeByUrl_of_nodup _ _ [] (dedupeByUrl_nodup_keys _ [] l) (fun r _ => by simp)
  · intro l
    refine ⟨dedupeByUrl_sublist _ [] l, fun u => dedupeByUrl_countP _ u l [] (by simp),
      fun u => dedupeByUrl_find? _ l [] u (by simp), ?_⟩
    exact dedupeByUrl_of_nodup _ _ [] (dedupeByUrl_nodup_keys _ [] l) (fun r _ => by simp)

/-! ## Lesson type detection (claim C3) -/

/-- Counterexample to C3 as stated: on a lesson node with no icon element
whose own markup carries an explicit `data-type="video"` attribute,
`detectLessonType` returns `unknown` immediately — the fallback scan of the
lesson node's markup is NOT reached when no icon is found (it only runs when
an icon was found but matched no keyword family). -/
theorem detectLessonType_no_icon_counterexample :
    noIconCard.icon = none ∧
    containsStr (lowerStr noIconCard.outerHTML) (strC "data-type=\"video\"") = true ∧
    typeAttrScan noIconCard.outerHTML = strC "video" ∧
    detectLessonType noIconCard = strC "unknown" := by
  refine ⟨rfl, by decide, by decide, by decide⟩

/-- C3 amended: `detectLessonType` falls back to scanning the lesson node's
own markup for explicit type attributes only when an icon was found but its
markup and class list matched no keyword family; when no icon is found it
returns `unknown` immediately, without scanning the node's markup. -/
theorem detectLessonType_branch_structure (node : LessonCardEl) :
    (node.icon = none → detectLessonType node = strC "unknown") ∧
    (∀ ic, node.icon = some ic → iconKeyword ic = none →
        detectLessonType node = typeAttrScan node.outerHTML) ∧
    (∀ ic r, node.icon = some ic → iconKeyword ic = some r → detectLessonType node = r) := by
  rcases node with ⟨t, ic?, html⟩
  cases ic? with
  | none =>
    refine ⟨fun _ => rfl, ?_, ?_⟩
    · intro ic h
      cases h
    · intro ic r h
      cases h
  | some ic0 =>
    have key : detectLessonType ⟨t, some ic0, html⟩ =
        (match iconKeyword ic0 with
         | some r => r
         | none => typeAttrScan html) := by
      simp only [detectLessonType, iconKeyword, typeAttrScan]
      split_ifs <;> rfl
    refine ⟨fun h => (by cases h), ?_, ?_⟩
    · intro ic h hnone
      injection h with h
      subst h
      rw [key, hnone]
    · intro ic r h hsome
      injection h with h
      subst h
      rw [key, hsome]

/-- Witness for the amended C3: a keyword-free icon makes the fallback scan
of the node markup run and classify the lesson as `video`. -/
theorem detectLessonType_branch_structure_witness :
    iconKeyword plainIcon = none ∧
    detectLessonType attrCard = typeAttrScan attrCard.outerHTML ∧
    typeAttrScan attrCard.outerHTML = strC "video" := by
  refine ⟨by decide, ?_, by decide⟩
  exact (detectLessonType_branch_structure attrCard).2.1 plainIcon rfl (by decide)

/-! ## Load-wait polling (claim C8) -/

theorem waitAux_iff (obs : Nat → Option Str) (expected : Str) :
    ∀ (fuel i : Nat), waitAux obs expected i fuel = true ↔
      ∃ j, j < fuel ∧ ∃ t, obs (i + j) = some t ∧ normalizeWait t = normalizeWait expected := by
  intro fuel
  induction fuel with
  | zero =>
    intro i
    simp [waitAux]
  | succ n ih =>
    intro i
    cases hobs : obs i with
    | none =>
      simp only [waitAux, hobs]
      rw [ih (i + 1)]
      constructor
      · rintro ⟨j, hj, t, ht, hn⟩
        refine ⟨j + 1, by omega, t, ?_, hn⟩
        have harith : i + (j + 1) = i + 1 + j := by omega
        rw [harith]
        exact ht
      · rintro ⟨j, hj, t, ht, hn⟩
        cases j with
        | zero =>
          rw [Nat.add_zero, hobs] at ht
          cases ht
        | succ j' =>
          refine ⟨j', by omega, t, ?_, hn⟩
          have harith : i + 1 + j' = i + (j' + 1) := by omega
          rw [harith]
          exact ht
    | some t0 =>
      by_cases heq : normalizeWait t0 = normalizeWait expected
      · simp only [waitAux, hobs, if_pos heq, true_iff]
        exact ⟨0, by omega, t0, by rw [Nat.add_zero]; exact hobs, heq⟩
      · simp only [waitAux, hobs, if_neg heq]
        rw [ih (i + 1)]
        constructor
        · rintro ⟨j, hj, t, ht, hn⟩
          refine ⟨j + 1, by omega, t, ?_, hn⟩
          have harith : i + (j + 1) = i + 1 + j := by omega
          rw [harith]
          exact ht
        · rintro ⟨j, hj, t, ht, hn⟩
          cases j with
          | zero =>
            rw [Nat.add_zero, hobs] at ht
            injection ht with ht
            exact absurd (ht ▸ hn) heq
          | succ j' =>
            refine ⟨j', by omega, t, ?_, hn⟩
            have harith : i + 1 + j' = i + (j' + 1) := by omega
            rw [harith]
            exact ht

/-- Counterexample to C8 as stated: the wait step's normalization is NOT the
case-folded normalization of the locate step.  With the editor title reading
`INTRO` and the expected lesson title `intro`, the two titles are equal under
the locate step's `normalizeText` (case-folded), yet `waitForLessonLoaded`
never succeeds, at any poll budget (24 polls ≈ the 12-second timeout). -/
theorem waitForLessonLoaded_not_case_folded :
    normalizeText (strC "INTRO") = normalizeText (strC "intro") ∧
    waitForLessonLoaded (fun _ => some (strC "INTRO")) (strC "intro") 24 = false ∧
    normalizeWait (strC "INTRO") ≠ normalizeWait (strC "intro") := by
  refine ⟨by decide, by decide, by decide⟩

/-- C8 amended: the wait-for-load step succeeds iff, within the poll budget
of the bounded timeout, some polled title element's normalized text — trimmed
and whitespace-collapsed but case-SENSITIVE (`waitForLessonLoaded`'s local
`normalize`, unlike the locate step's `normalizeText`) — is exactly equal to
the lesson's normalized title; a substring/contains relation is never
sufficient. -/
theorem waitForLessonLoaded_exact_match_iff (obs : Nat → Option Str) (expected : Str)
    (fuel : Nat) :
    waitForLessonLoaded obs expected fuel = true ↔
      ∃ j, j < fuel ∧ ∃ t, obs j = some t ∧ normalizeWait t = normalizeWait expected := by
  unfold waitForLessonLoaded
  rw [waitAux_iff obs expected fuel 0]
  simp

/-! ## Title normalization (claim C7)

`normalizeText s` is characterized as the lower-cased words of `s` joined by
single spaces; idempotence and case/whitespace insensitivity follow. -/

theorem lowerCh_idem (c : Nat) : lowerCh (lowerCh c) = lowerCh c := by
  unfold lowerCh
  split_ifs <;> omega

theorem isWsB_ge_false {c : Nat} (h : 33 ≤ c) : isWsB c = false := by
  unfold isWsB
  simp only [Bool.or_eq_false_iff, beq_eq_false_iff_ne, ne_eq]
  omega

theorem isWsB_lowerCh (c : Nat) : isWsB (lowerCh c) = isWsB c := by
  unfold lowerCh
  split_ifs with h
  · rw [isWsB_ge_false (by omega), isWsB_ge_false (by omega)]
  · rfl

theorem lowerCh_32 : lowerCh 32 = 32 := by decide

theorem dropTrailingWs_cons_nonws {c : Nat} (h : isWsB c = false) (t : Str) :
    dropTrailingWs (c :: t) = c :: dropTrailingWs t := by
  rcases hd : dropTrailingWs t with _ | ⟨x, xs⟩ <;> simp [dropTrailingWs, hd, h]

theorem dropTrailingWs_eq_nil {t : Str} (h : ∀ c ∈ t, isWsB c = true) :
    dropTrailingWs t = [] := by
  induction t with
  | nil => rfl
  | cons c r ih =>
    have hr := ih (fun x hx => h x (List.mem_cons_of_mem _ hx))
    simp [dropTrailingWs, hr, h c (List.mem_cons_self _ _)]

theorem dropTrailingWs_word_append {w : Str} (hw : ∀ c ∈ w, isWsB c = false) (u : Str) :
    dropTrailingWs (w ++ u) = w ++ dropTrailingWs u := by
  induction w with
  | nil => rfl
  | cons c w' ih =>
    rw [List.cons_append, dropTrailingWs_cons_nonws (hw c (List.mem_cons_self _ _)),
      ih (fun x hx => hw x (List.mem_cons_of_mem _ hx)), List.cons_append]

theorem dropTrailingWs_ws_append {g : Str} (hg : ∀ c ∈ g, isWsB c = true) (u : Str)
    (hu : dropTrailingWs u ≠ []) :
    dropTrailingWs (g ++ u) = g ++ dropTrailingWs u := by
  induction g with
  | nil => rfl
  | cons c g' ih =>
    have ih' := ih (fun x hx => hg x (List.mem_cons_of_mem _ hx))
    rw [List.cons_append]
    rcases hd : g' ++ dropTrailingWs u with _ | ⟨x, xs⟩
    · rcases List.append_eq_nil.mp hd with ⟨-, h2⟩
      exact absurd h2 hu
    · simp [dropTrailingWs, ih', hd]

theorem collapseAux_cons_nonws {c : Nat} (h : isWsB c = false) (b : Bool) (t : Str) :
    collapseAux b (c :: t) = c :: collapseAux false t := by
  cases b <;> simp [collapseAux, h]

theorem collapseAux_cons_ws_false {c : Nat} (h : isWsB c = true) (t : Str) :
    collapseAux false (c :: t) = 32 :: collapseAux true t := by
  simp [collapseAux, h]

theorem collapseAux_cons_ws_true {c : Nat} (h : isWsB c = true) (t : Str) :
    collapseAux true (c :: t) = collapseAux true t := by
  simp [collapseAux, h]

theorem collapseAux_word_append {w : Str} (hw : ∀ c ∈ w, isWsB c = false) (v : Str) :
    collapseAux false (w ++ v) = w ++ collapseAux false v := by
  induction w with
  | nil => rfl
  | cons c w' ih =>
    rw [List.cons_append, collapseAux_cons_nonws (hw c (List.mem_cons_self _ _)) false,
      ih (fun x hx => hw x (List.mem_cons_of_mem _ hx)), List.cons_append]

theorem collapseAux_true_ws_append {g : Str} (hg : ∀ c ∈ g, isWsB c = true) (v : Str) :
    collapseAux true (g ++ v) = collapseAux true v := by
  induction g with
  | nil => rfl
  | cons c g' ih =>
    rw [List.cons_append, collapseAux_cons_ws_true (hg c (List.mem_cons_self _ _)),
      ih (fun x hx => hg x (List.mem_cons_of_mem _ hx))]

theorem collapseAux_false_ws_append {g : Str} (hgne : g ≠ []) (hg : ∀ c ∈ g, isWsB c = true)
    (v : Str) :
    collapseAux false (g ++ v) = 32 :: collapseAux true v := by
  cases g with
  | nil => exact absurd rfl hgne
  | cons c g' =>
    rw [List.cons_append, collapseAux_cons_ws_false (hg c (List.mem_cons_self _ _)),
      collapseAux_true_ws_append (fun x hx => hg x (List.mem_cons_of_mem _ hx)) v]

theorem collapseAux_true_eq_false {v : Str}
    (h : ∀ c, v.head? = some c → isWsB c = false) :
    collapseAux true v = collapseAux false v := by
  cases v with
  | nil => rfl
  | cons c v' =>
    have hc := h c rfl
    rw [collapseAux_cons_nonws hc true, collapseAux_cons_nonws hc false]

theorem wordsOf_nil : wordsOf [] = [] := by
  rw [wordsOf]

theorem wordsOf_cons_ws {c : Nat} (h : isWsB c = true) (t : Str) :
    wordsOf (c :: t) = wordsOf t := by
  rw [wordsOf]
  simp [h]

theorem wordsOf_cons_nonws {c : Nat} (h : isWsB c = false) (t : Str) :
    wordsOf (c :: t) =
      (c :: t.takeWhile (fun d => !isWsB d)) :: wordsOf (t.dropWhile (fun d => !isWsB d)) := by
  rw [wordsOf]
  simp [h]

theorem wordsOf_ws_append {g : Str} (hg : ∀ c ∈ g, isWsB c = true) (v : Str) :
    wordsOf (g ++ v) = wordsOf v := by
  induction g with
  | nil => rfl
  | cons c g' ih =>
    rw [List.cons_append, wordsOf_cons_ws (hg c (List.mem_cons_self _ _)),
      ih (fun x hx => hg x (List.mem_cons_of_mem _ hx))]

theorem wordsOf_all_nonws {w : Str} (hne : w ≠ []) (hw : ∀ c ∈ w, isWsB c = false) :
    wordsOf w = [w] := by
  cases w with
  | nil => exact absurd rfl hne
  | cons c w' =>
    rw [wordsOf_cons_nonws (hw c (List.mem_cons_self _ _))]
    have ht : w'.takeWhile (fun d => !isWsB d) = w' :=
      List.takeWhile_eq_self_iff.mpr (fun x hx => by simp [hw x (List.mem_cons_of_mem _ hx)])
    have hd : w'.dropWhile (fun d => !isWsB d) = [] :=
      List.dropWhile_eq_nil_iff.mpr (fun x hx => by simp [hw x (List.mem_cons_of_mem _ hx)])
    rw [ht, hd, wordsOf_nil]

theorem wordsOf_dropWhile (s : Str) : wordsOf (s.dropWhile isWsB) = wordsOf s := by
  induction s with
  | nil => rfl
  | cons c t ih =>
    by_cases hc : isWsB c = true
    · rw [List.dropWhile_cons_of_pos hc, ih, wordsOf_cons_ws hc]
    · have hc' : isWsB c = false := by simpa using hc
      rw [List.dropWhile_cons_of_neg (by simp [hc'])]

theorem wordsOf_spec (s : Str) : ∀ w ∈ wordsOf s, w ≠ [] ∧ ∀ c ∈ w, isWsB c = false := by
  have H : ∀ n, ∀ s : Str, s.length ≤ n →
      ∀ w ∈ wordsOf s, w ≠ [] ∧ ∀ c ∈ w, isWsB c = false := by
    intro n
    induction n with
    | zero =>
      intro s hs w hw
      have hnil : s = [] := List.eq_nil_of_length_eq_zero (Nat.le_zero.mp hs)
      subst hnil
      rw [wordsOf_nil] at hw
      simp at hw
    | succ n ih =>
      intro s hs w hw
      cases s with
      | nil =>
        rw [wordsOf_nil] at hw
        simp at hw
      | cons c t =>
        by_cases hc : isWsB c = true
        · rw [wordsOf_cons_ws hc] at hw
          refine ih t ?_ w hw
          simp only [List.length_cons] at hs
          omega
        · have hc' : isWsB c = false := by simpa using hc
          rw [wordsOf_cons_nonws hc'] at hw
          rcases List.mem_cons.mp hw with hw | hw
          · subst hw
            refine ⟨by simp, ?_⟩
            intro x hx
            rcases List.mem_cons.mp hx with hx | hx
            · exact hx ▸ hc'
            · have := List.mem_takeWhile_imp hx
              simpa using this
          · refine ih (t.dropWhile (fun d => !isWsB d)) ?_ w hw
            have h1 : (t.dropWhile (fun d => !isWsB d)).length ≤ t.length :=
              (List.dropWhile_sublist _).length_le
            simp only [List.length_cons] at hs
            omega
  exact H s.length s (Nat.le_refl _)

theorem joinWords_cons {w : Str} {ws : List Str} (h : ws ≠ []) :
    joinWords (w :: ws) = w ++ 32 :: joinWords ws := by
  cases ws with
  | nil => exact absurd rfl h
  | cons w2 ws' => rfl

theorem map_joinWords (ws : List Str) :
    (joinWords ws).map lowerCh = joinWords (ws.map (List.map lowerCh)) := by
  induction ws with
  | nil => rfl
  | cons w ws' ih =>
    cases ws' with
    | nil => rfl
    | cons w2 rest =>
      rw [joinWords_cons (List.cons_ne_nil w2 rest), List.map_append, List.map_cons, lowerCh_32,
        ih, List.map_cons, List.map_cons, List.map_cons, joinWords_cons (List.cons_ne_nil _ _)]

theorem collapse_dropTrailing_eq_joinWords :
    ∀ s : Str, (∀ c, s.head? = some c → isWsB c = false) →
      collapseAux false (dropTrailingWs s) = joinWords (wordsOf s) := by
  have H : ∀ n, ∀ s : Str, s.length ≤ n → (∀ c, s.head? = some c → isWsB c = false) →
      collapseAux false (dropTrailingWs s) = joinWords (wordsOf s) := by
    intro n
    induction n with
    | zero =>
      intro s hs _
      have hnil : s = [] := List.eq_nil_of_length_eq_zero (Nat.le_zero.mp hs)
      subst hnil
      rw [wordsOf_nil]
      rfl
    | succ n ih =>
      intro s hs hhead
      cases s with
      | nil =>
        rw [wordsOf_nil]
        rfl
      | cons c t =>
        have hc : isWsB c = false := hhead c rfl
        have hw_nonws : ∀ x ∈ c :: t.takeWhile (fun d => !isWsB d), isWsB x = false := by
          intro x hx
          rcases List.mem_cons.mp hx with hx | hx
          · exact hx ▸ hc
          · have := List.mem_takeWhile_imp hx
            simpa using this
        have hsplit : c :: t =
            (c :: t.takeWhile (fun d => !isWsB d)) ++ t.dropWhile (fun d => !isWsB d) := by
          rw [List.cons_append, List.takeWhile_append_dropWhile]
        rw [wordsOf_cons_nonws hc]
        rcases hu : t.dropWhile (fun d => !isWsB d) with _ | ⟨d, u'⟩
        · rw [hu, List.append_nil] at hsplit
          have h1 : dropTrailingWs (c :: t.takeWhile (fun d => !isWsB d)) =
              c :: t.takeWhile (fun d => !isWsB d) := by
            have := dropTrailingWs_word_append hw_nonws []
            simpa [dropTrailingWs] using this
          have h2 : collapseAux false (c :: t.takeWhile (fun d => !isWsB d)) =
              c :: t.takeWhile (fun d => !isWsB d) := by
            have := collapseAux_word_append hw_nonws []
            simpa [collapseAux] using this
          rw [wordsOf_nil, hsplit, h1, h2]
          rfl
        · have hd : isWsB d = true := by
            have h0 := List.head?_dropWhile_not (fun d => !isWsB d) t
            rw [hu] at h0
            simpa using h0
          rw [hu] at hsplit
          have hgsplit : d :: u' = (d :: u').takeWhile isWsB ++ (d :: u').dropWhile isWsB :=
            (List.takeWhile_append_dropWhile _ _).symm
          have hg_ws : ∀ x ∈ (d :: u').takeWhile isWsB, isWsB x = true :=
            fun x hx => List.mem_takeWhile_imp hx
          have hg_ne : (d :: u').takeWhile isWsB ≠ [] := by
            rw [List.takeWhile_cons_of_pos hd]
            simp
          rcases hv : (d :: u').dropWhile isWsB with _ | ⟨e, v'⟩
          · have hu_allws : ∀ x ∈ d :: u', isWsB x = true :=
              List.dropWhile_eq_nil_iff.mp hv
            have hwords_u : wordsOf (d :: u') = [] := by
              have := wordsOf_ws_append hu_allws []
              simpa [wordsOf_nil] using this
            rw [hwords_u, hsplit, dropTrailingWs_word_append hw_nonws,
              dropTrailingWs_eq_nil hu_allws, List.append_nil]
            have h2 : collapseAux false (c :: t.takeWhile (fun d => !isWsB d)) =
                c :: t.takeWhile (fun d => !isWsB d) := by
              have := collapseAux_word_append hw_nonws []
              simpa [collapseAux] using this
            rw [h2]
            rfl
          · have he : isWsB e = false := by
              have h0 := List.head?_dropWhile_not isWsB (d :: u')
              rw [hv] at h0
              simpa using h0
            rw [hv] at hgsplit
            have hwords_u : wordsOf (d :: u') = wordsOf (e :: v') := by
              rw [hgsplit]
              exact wordsOf_ws_append hg_ws (e :: v')
            have hwne : wordsOf (e :: v') ≠ [] := by
              rw [wordsOf_cons_nonws he]
              simp
            have hdv : dropTrailingWs (e :: v') = e :: dropTrailingWs v' :=
              dropTrailingWs_cons_nonws he v'
            have hdv_ne : dropTrailingWs (e :: v') ≠ [] := by
              rw [hdv]
              simp
            have hlen : (e :: v').length ≤ n := by
              have h1 : (d :: u').length ≤ t.length := by
                rw [← hu]
                exact (List.dropWhile_sublist _).length_le
              have h2 : (e :: v').length ≤ u'.length := by
                have hstep : (d :: u').dropWhile isWsB = u'.dropWhile isWsB :=
                  List.dropWhile_cons_of_pos hd
                rw [hstep] at hv
                calc (e :: v').length = (u'.dropWhile isWsB).length := by rw [hv]
                  _ ≤ u'.length := (List.dropWhile_sublist _).length_le
              simp only [List.length_cons] at h1 h2 ⊢
              simp only [List.length_cons] at hs
              omega
            have hih := ih (e :: v') hlen (fun x hx => by
              simp only [List.head?_cons, Option.some.injEq] at hx
              exact hx ▸ he)
            rw [hwords_u, joinWords_cons hwne, hsplit, hgsplit,
              dropTrailingWs_word_append hw_nonws,
              dropTrailingWs_ws_append hg_ws _ hdv_ne,
              collapseAux_word_append hw_nonws,
              collapseAux_false_ws_append hg_ne hg_ws,
              collapseAux_true_eq_false (fun x hx => by
                rw [hdv] at hx
                simp only [List.head?_cons, Option.some.injEq] at hx
                exact hx ▸ he),
              hih]
  exact fun s h => H s.length s (Nat.le_refl _) h

theorem normalizeText_characterization (s : Str) :
    normalizeText s = joinWords ((wordsOf s).map (List.map lowerCh)) := by
  unfold normalizeText trimStr lowerStr
  have hhead : ∀ c, (s.dropWhile isWsB).head? = some c → isWsB c = false := by
    intro c hc
    have h0 := List.head?_dropWhile_not isWsB s
    rw [hc] at h0
    exact h0
  rw [collapse_dropTrailing_eq_joinWords (s.dropWhile isWsB) hhead, wordsOf_dropWhile s]
  exact map_joinWords _

theorem wordsOf_map_lower (s : Str) :
    wordsOf (s.map lowerCh) = (wordsOf s).map (List.map lowerCh) := by
  have H : ∀ n, ∀ s : Str, s.length ≤ n →
      wordsOf (s.map lowerCh) = (wordsOf s).map (List.map lowerCh) := by
    intro n
    induction n with
    | zero =>
      intro s hs
      have hnil : s = [] := List.eq_nil_of_length_eq_zero (Nat.le_zero.mp hs)
      subst hnil
      rw [List.map_nil, wordsOf_nil, List.map_nil]
    | succ n ih =>
      intro s hs
      cases s with
      | nil => rw [List.map_nil, wordsOf_nil, List.map_nil]
      | cons c t =>
        by_cases hc : isWsB c = true
        · rw [List.map_cons, wordsOf_cons_ws hc, wordsOf_cons_ws (by rw [isWsB_lowerCh]; exact hc)]
          refine ih t ?_
          simp only [List.length_cons] at hs
          omega
        · have hc' : isWsB c = false := by simpa using hc
          have hcl : isWsB (lowerCh c) = false := by rw [isWsB_lowerCh]; exact hc'
          have hpred : ((fun d => !isWsB d) ∘ lowerCh) = (fun d => !isWsB d) := by
            funext d
            simp [Function.comp, isWsB_lowerCh]
          rw [List.map_cons, wordsOf_cons_nonws hc', wordsOf_cons_nonws hcl, List.map_cons,
            List.map_cons, List.takeWhile_map, List.dropWhile_map, hpred]
          congr 1
          refine ih (t.dropWhile (fun d => !isWsB d)) ?_
          have h1 : (t.dropWhile (fun d => !isWsB d)).length ≤ t.length :=
            (List.dropWhile_sublist _).length_le
          simp only [List.length_cons] at hs
          omega
  exact H s.length s (Nat.le_refl _)

theorem takeWhile_word_append {p : Nat → Bool} {w : Str} (hw : ∀ x ∈ w, p x = true)
    {x0 : Nat} (hx : p x0 = false) (r : Str) :
    (w ++ x0 :: r).takeWhile p = w := by
  induction w with
  | nil => rw [List.nil_append, List.takeWhile_cons_of_neg (by simp [hx])]
  | cons a w' ih =>
    rw [List.cons_append, List.takeWhile_cons_of_pos (hw a (List.mem_cons_self _ _)),
      ih (fun x hxm => hw x (List.mem_cons_of_mem _ hxm))]

theorem dropWhile_word_append {p : Nat → Bool} {w : Str} (hw : ∀ x ∈ w, p x = true)
    {x0 : Nat} (hx : p x0 = false) (r : Str) :
    (w ++ x0 :: r).dropWhile p = x0 :: r := by
  induction w with
  | nil => rw [List.nil_append, List.dropWhile_cons_of_neg (by simp [hx])]
  | cons a w' ih =>
    rw [List.cons_append, List.dropWhile_cons_of_pos (hw a (List.mem_cons_self _ _)),
      ih (fun x hxm => hw x (List.mem_cons_of_mem _ hxm))]

theorem wordsOf_joinWords : ∀ ws : List Str,
    (∀ w ∈ ws, w ≠ [] ∧ ∀ c ∈ w, isWsB c = false) → wordsOf (joinWords ws) = ws := by
  intro ws
  induction ws with
  | nil => intro _; exact wordsOf_nil
  | cons w ws' ih =>
    intro h
    obtain ⟨hwne, hw_nonws⟩ := h w (List.mem_cons_self _ _)
    cases ws' with
    | nil =>
      have hjw : joinWords [w] = w := rfl
      rw [hjw]
      exact wordsOf_all_nonws hwne hw_nonws
    | cons w2 rest =>
      rw [joinWords_cons (List.cons_ne_nil w2 rest)]
      cases w with
      | nil => exact absurd rfl hwne
      | cons c w'' =>
        have hc : isWsB c = false := hw_nonws c (List.mem_cons_self _ _)
        rw [List.cons_append, wordsOf_cons_nonws hc]
        have hw''_nonws : ∀ x ∈ w'', (fun d => !isWsB d) x = true := by
          intro x hx
          simp [hw_nonws x (List.mem_cons_of_mem _ hx)]
        have h32 : (fun d => !isWsB d) 32 = false := by decide
        rw [takeWhile_word_append hw''_nonws h32, dropWhile_word_append hw''_nonws h32,
          wordsOf_cons_ws (by decide)]
        congr 1
        exact ih (fun x hx => h x (List.mem_cons_of_mem _ hx))

/-- C7: the title-normalization function `normalizeText` used for lesson
re-identification is idempotent, case-insensitive (strings equal after case
folding normalize identically) and whitespace-insensitive (strings with the
same maximal non-whitespace runs normalize identically), and
`normalizeText "Intro  Lesson" = normalizeText "intro lesson"`. -/
theorem normalizeText_idempotent_case_ws_insensitive :
    (∀ s : Str, normalizeText (normalizeText s) = normalizeText s) ∧
    (∀ s t : Str, lowerStr s = lowerStr t → normalizeText s = normalizeText t) ∧
    (∀ s t : Str, wordsOf s = wordsOf t → normalizeText s = normalizeText t) ∧
    normalizeText (strC "Intro  Lesson") = normalizeText (strC "intro lesson") := by
  refine ⟨?_, ?_, ?_, by decide⟩
  · intro s
    have hW : ∀ w ∈ (wordsOf s).map (List.map lowerCh), w ≠ [] ∧ ∀ c ∈ w, isWsB c = false := by
      intro w hw
      rcases List.mem_map.mp hw with ⟨w0, hw0, rfl⟩
      obtain ⟨hne, hnw⟩ := wordsOf_spec s w0 hw0
      refine ⟨by simpa using hne, ?_⟩
      intro c hc
      rcases List.mem_map.mp hc with ⟨c0, hc0, rfl⟩
      rw [isWsB_lowerCh]
      exact hnw c0 hc0
    rw [normalizeText_characterization s,
      normalizeText_characterization (joinWords ((wordsOf s).map (List.map lowerCh))),
      wordsOf_joinWords _ hW, List.map_map]
    have hcomp : (List.map lowerCh ∘ List.map lowerCh) = List.map lowerCh := by
      funext w
      rw [Function.comp_apply, List.map_map]
      have hl : (lowerCh ∘ lowerCh) = lowerCh := funext lowerCh_idem
      rw [hl]
    rw [hcomp]
  · intro s t h
    rw [normalizeText_characterization s, normalizeText_characterization t,
      ← wordsOf_map_lower s, ← wordsOf_map_lower t]
    unfold lowerStr at h
    rw [h]
  · intro s t h
    rw [normalizeText_characterization s, normalizeText_characterization t, h]

/-- Witness for C7: two strings differing only in case normalize identically,
and two strings differing only in whitespace runs normalize identically. -/
theorem normalizeText_insensitive_witness :
    lowerStr (strC "AbC") = lowerStr (strC "aBc") ∧
    normalizeText (strC "AbC") = normalizeText (strC "aBc") ∧
    wordsOf (strC " a  b ") = wordsOf (strC "a b") ∧
    normalizeText (strC " a  b ") = normalizeText (strC "a b") := by
  have hstr1 : strC " a  b " = [32, 97, 32, 32, 98, 32] := by decide
  have hstr2 : strC "a b" = [97, 32, 98] := by decide
  have hwords : wordsOf (strC " a  b ") = wordsOf (strC "a b") := by
    rw [hstr1, hstr2]
    simp [wordsOf, isWsB]
  refine ⟨by decide, ?_, hwords, ?_⟩
  · exact normalizeText_idempotent_case_ws_insensitive.2.1 _ _ (by decide)
  · exact normalizeText_idempotent_case_ws_insensitive.2.2.1 _ _ hwords

/-! ## The interaction loop (claims C1, C2, C5, C9) -/

theorem checkCancel_none (i : Nat) : checkCancel none i = false := rfl

theorem checkCancel_some_false {k i : Nat} (h : i < k) : checkCancel (some k) i = false := by
  simp only [checkCancel, decide_eq_false_iff_not]
  omega

theorem checkCancel_some_true {k i : Nat} (h : k ≤ i) : checkCancel (some k) i = true := by
  simp only [checkCancel, decide_eq_true_eq]
  exact h

theorem runFlat_cancel_eq {env : Nat → Outcome} {cf : Option Nat} {total idx : Nat}
    (h : checkCancel cf idx = true) (x : LessonResult) (rest : List LessonResult) (c : Nat) :
    runFlat env cf total (x :: rest) idx c =
      ⟨x :: rest, idx, c, true, [Event.cancelledMsg c total]⟩ := by
  simp [runFlat, h]

theorem runFlat_go_eq {env : Nat → Outcome} {cf : Option Nat} {total idx : Nat}
    (h : checkCancel cf idx = false) (x : LessonResult) (rest : List LessonResult) (c : Nat) :
    runFlat env cf total (x :: rest) idx c =
      ⟨lessonUpdate (env idx) x ::
         (runFlat env cf total rest (idx + 1)
           (if outcomeCompletes (env idx) then c + 1 else c)).lessons,
       (runFlat env cf total rest (idx + 1)
         (if outcomeCompletes (env idx) then c + 1 else c)).idx,
       (runFlat env cf total rest (idx + 1)
         (if outcomeCompletes (env idx) then c + 1 else c)).completed,
       (runFlat env cf total rest (idx + 1)
         (if outcomeCompletes (env idx) then c + 1 else c)).cancelled,
       (if outcomeCompletes (env idx) then
          [Event.progress (if outcomeCompletes (env idx) then c + 1 else c) total x.title]
        else []) ++
         (runFlat env cf total rest (idx + 1)
           (if outcomeCompletes (env idx) then c + 1 else c)).events⟩ := by
  by_cases ho : outcomeCompletes (env idx) = true <;> simp [runFlat, h, ho]

theorem runFlat_getElem_processed (env : Nat → Outcome) (cf : Option Nat) (total : Nat) :
    ∀ (l : List LessonResult) (idx c j : Nat), (∀ i, i ≤ idx + j → checkCancel cf i = false) →
      (runFlat env cf total l idx c).lessons[j]? =
        (l[j]?).map (lessonUpdate (env (idx + j))) := by
  intro l
  induction l with
  | nil =>
    intro idx c j _
    simp [runFlat]
  | cons x rest ih =>
    intro idx c j h
    rw [runFlat_go_eq (h idx (by omega))]
    cases j with
    | zero => simp
    | succ j' =>
      simp only [List.getElem?_cons_succ]
      have harith : idx + (j' + 1) = idx + 1 + j' := by omega
      rw [harith]
      exact ih (idx + 1) _ j' (fun i hi => h i (by omega))

theorem runFlat_getElem_untouched (env : Nat → Outcome) (k total : Nat) :
    ∀ (l : List LessonResult) (idx c j : Nat), k ≤ idx + j →
      (runFlat env (some k) total l idx c).lessons[j]? = l[j]? := by
  intro l
  induction l with
  | nil =>
    intro idx c j _
    simp [runFlat]
  | cons x rest ih =>
    intro idx c j h
    by_cases hc : k ≤ idx
    · rw [runFlat_cancel_eq (checkCancel_some_true hc)]
    · rw [runFlat_go_eq (checkCancel_some_false (by omega))]
      cases j with
      | zero =>
        exfalso
        omega
      | succ j' =>
        simp only [List.getElem?_cons_succ]
        exact ih (idx + 1) _ j' (by omega)

theorem runFlat_none_cancelled (env : Nat → Outcome) (total : Nat) :
    ∀ (l : List LessonResult) (idx c : Nat), (runFlat env none total l idx c).cancelled = false := by
  intro l
  induction l with
  | nil => intro idx c; rfl
  | cons x rest ih =>
    intro idx c
    rw [runFlat_go_eq (checkCancel_none idx)]
    exact ih (idx + 1) _

theorem runFlat_some_cancelled (env : Nat → Outcome) (k total : Nat) :
    ∀ (l : List LessonResult) (idx c : Nat), l ≠ [] → k < idx + l.length →
      (runFlat env (some k) total l idx c).cancelled = true := by
  intro l
  induction l with
  | nil =>
    intro idx c hne _
    exact absurd rfl hne
  | cons x rest ih =>
    intro idx c _ hk
    by_cases hc : k ≤ idx
    · rw [runFlat_cancel_eq (checkCancel_some_true hc)]
    · rw [runFlat_go_eq (checkCancel_some_false (by omega))]
      cases rest with
      | nil =>
        exfalso
        simp only [List.length_cons, List.length_nil] at hk
        omega
      | cons y rest' =>
        refine ih (idx + 1) _ (by simp) ?_
        simp only [List.length_cons] at hk ⊢
        omega

theorem runFlat_none_completed (env : Nat → Outcome) (total : Nat) :
    ∀ (l : List LessonResult) (idx c : Nat),
      (runFlat env none total l idx c).completed = c + completedCount env idx l.length := by
  intro l
  induction l with
  | nil =>
    intro idx c
    simp [runFlat, completedCount]
  | cons x rest ih =>
    intro idx c
    rw [runFlat_go_eq (checkCancel_none idx), ih (idx + 1)]
    simp only [List.length_cons, completedCount]
    by_cases ho : outcomeCompletes (env idx) = true <;> simp [ho, Nat.add_assoc, Nat.add_comm]

theorem runFlat_some_completed (env : Nat → Outcome) (k total : Nat) :
    ∀ (l : List LessonResult) (idx c : Nat),
      (runFlat env (some k) total l idx c).completed =
        c + completedCount env idx (min l.length (k - idx)) := by
  intro l
  induction l with
  | nil =>
    intro idx c
    simp [runFlat, completedCount]
  | cons x rest ih =>
    intro idx c
    by_cases hc : k ≤ idx
    · rw [runFlat_cancel_eq (checkCancel_some_true hc)]
      have h0 : k - idx = 0 := by omega
      simp [h0, completedCount]
    · rw [runFlat_go_eq (checkCancel_some_false (by omega)), ih (idx + 1)]
      have h1 : k - idx = (k - (idx + 1)) + 1 := by omega
      rw [h1]
      simp only [List.length_cons, Nat.succ_min_succ, completedCount]
      by_cases ho : outcomeCompletes (env idx) = true <;> simp [ho] <;> try omega

theorem runFlat_none_countP (env : Nat → Outcome) (total : Nat) :
    ∀ (l : List LessonResult) (idx c : Nat),
      (runFlat env none total l idx c).events.countP isProgressEvent =
        completedCount env idx l.length := by
  intro l
  induction l with
  | nil =>
    intro idx c
    simp [runFlat, completedCount]
  | cons x rest ih =>
    intro idx c
    rw [runFlat_go_eq (checkCancel_none idx)]
    simp only [List.countP_append]
    rw [ih (idx + 1)]
    simp only [List.length_cons, completedCount]
    by_cases ho : outcomeCompletes (env idx) = true <;>
      simp [ho, isProgressEvent, List.countP_cons] <;> try omega

theorem runFlat_none_progress_mem (env : Nat → Outcome) (total : Nat) :
    ∀ (l : List LessonResult) (idx c j : Nat) (x : LessonResult),
      l[j]? = some x → outcomeCompletes (env (idx + j)) = true →
      Event.progress (c + completedCount env idx (j + 1)) total x.title ∈
        (runFlat env none total l idx c).events := by
  intro l
  induction l with
  | nil =>
    intro idx c j x hg _
    simp at hg
  | cons y rest ih =>
    intro idx c j x hg ho
    rw [runFlat_go_eq (checkCancel_none idx)]
    cases j with
    | zero =>
      simp only [List.getElem?_cons_zero, Option.some.injEq] at hg
      subst hg
      rw [Nat.add_zero] at ho
      have hcc : c + completedCount env idx 1 = c + 1 := by
        simp [completedCount, ho]
      rw [hcc]
      simp [ho]
    | succ j' =>
      simp only [List.getElem?_cons_succ] at hg
      have harith : idx + (j' + 1) = idx + 1 + j' := by omega
      rw [harith] at ho
      have hmem := ih (idx + 1) (if outcomeCompletes (env idx) then c + 1 else c) j' x hg ho
      have hcnt : (if outcomeCompletes (env idx) then c + 1 else c) +
          completedCount env (idx + 1) (j' + 1) =
          c + completedCount env idx (j' + 1 + 1) := by
        simp only [completedCount]
        by_cases ho2 : outcomeCompletes (env idx) = true <;> simp [ho2] <;> try omega
      rw [hcnt] at hmem
      exact List.mem_append_right _ hmem

theorem runFlat_cancel_event (env : Nat → Outcome) (k total : Nat) :
    ∀ (l : List LessonResult) (idx c : Nat), l ≠ [] → k < idx + l.length →
      Event.cancelledMsg (runFlat env (some k) total l idx c).completed total ∈
        (runFlat env (some k) total l idx c).events := by
  intro l
  induction l with
  | nil =>
    intro idx c hne _
    exact absurd rfl hne
  | cons x rest ih =>
    intro idx c _ hk
    by_cases hc : k ≤ idx
    · rw [runFlat_cancel_eq (checkCancel_some_true hc)]
      simp
    · rw [runFlat_go_eq (checkCancel_some_false (by omega))]
      refine List.mem_append_right _ ?_
      cases rest with
      | nil =>
        exfalso
        simp only [List.length_cons, List.length_nil] at hk
        omega
      | cons y rest' =>
        refine ih (idx + 1) _ (by simp) ?_
        simp only [List.length_cons] at hk ⊢
        omega

theorem runFlat_append (env : Nat → Outcome) (cf : Option Nat) (total : Nat) :
    ∀ (l1 l2 : List LessonResult) (idx c : Nat),
      runFlat env cf total (l1 ++ l2) idx c =
        if (runFlat env cf total l1 idx c).cancelled then
          ⟨(runFlat env cf total l1 idx c).lessons ++ l2,
           (runFlat env cf total l1 idx c).idx,
           (runFlat env cf total l1 idx c).completed, true,
           (runFlat env cf total l1 idx c).events⟩
        else
          ⟨(runFlat env cf total l1 idx c).lessons ++
             (runFlat env cf total l2 (runFlat env cf total l1 idx c).idx
               (runFlat env cf total l1 idx c).completed).lessons,
           (runFlat env cf total l2 (runFlat env cf total l1 idx c).idx
             (runFlat env cf total l1 idx c).completed).idx,
           (runFlat env cf total l2 (runFlat env cf total l1 idx c).idx
             (runFlat env cf total l1 idx c).completed).completed,
           (runFlat env cf total l2 (runFlat env cf total l1 idx c).idx
             (runFlat env cf total l1 idx c).completed).cancelled,
           (runFlat env cf total l1 idx c).events ++
             (runFlat env cf total l2 (runFlat env cf total l1 idx c).idx
               (runFlat env cf total l1 idx c).completed).events⟩ := by
  intro l1
  induction l1 with
  | nil =>
    intro l2 idx c
    rfl
  | cons x rest ih =>
    intro l2 idx c
    by_cases hc : checkCancel cf idx = true
    · rw [List.cons_append, runFlat_cancel_eq hc, runFlat_cancel_eq hc]
      simp
    · have hc' : checkCancel cf idx = false := by simpa using hc
      rw [List.cons_append, runFlat_go_eq hc', runFlat_go_eq hc',
        ih l2 (idx + 1) (if outcomeCompletes (env idx) then c + 1 else c)]
      by_cases hcanc : (runFlat env cf total rest (idx + 1)
          (if outcomeCompletes (env idx) then c + 1 else c)).cancelled = true
      · simp [hcanc]
      · simp [hcanc, List.append_assoc]

theorem runChapters_eq_runFlat (env : Nat → Outcome) (cf : Option Nat) (total : Nat) :
    ∀ (chs : List ChapterRes) (idx c : Nat),
      flatLessons (runChapters env cf total chs idx c).chapters =
          (runFlat env cf total (flatLessons chs) idx c).lessons ∧
      (runChapters env cf total chs idx c).idx =
          (runFlat env cf total (flatLessons chs) idx c).idx ∧
      (runChapters env cf total chs idx c).completed =
          (runFlat env cf total (flatLessons chs) idx c).completed ∧
      (runChapters env cf total chs idx c).cancelled =
          (runFlat env cf total (flatLessons chs) idx c).cancelled ∧
      (runChapters env cf total chs idx c).events =
          (runFlat env cf total (flatLessons chs) idx c).events := by
  intro chs
  induction chs with
  | nil =>
    intro idx c
    exact ⟨rfl, rfl, rfl, rfl, rfl⟩
  | cons ch rest ih =>
    intro idx c
    have hfl : flatLessons (ch :: rest) = ch.lessons ++ flatLessons rest := by
      simp [flatLessons]
    rw [hfl, runFlat_append env cf total ch.lessons (flatLessons rest) idx c]
    simp only [runChapters]
    by_cases hcanc : (runFlat env cf total ch.lessons idx c).cancelled = true
    · rw [if_pos hcanc, if_pos hcanc]
      refine ⟨?_, rfl, rfl, rfl, rfl⟩
      simp [flatLessons]
    · obtain ⟨h1, h2, h3, h4, h5⟩ :=
        ih (runFlat env cf total ch.lessons idx c).idx
          (runFlat env cf total ch.lessons idx c).completed
      rw [if_neg hcanc, if_neg hcanc]
      refine ⟨?_, h2, h3, h4, ?_⟩
      · have : flatLessons ({ ch with lessons := (runFlat env cf total ch.lessons idx c).lessons }
            :: (runChapters env cf total rest (runFlat env cf total ch.lessons idx c).idx
              (runFlat env cf total ch.lessons idx c).completed).chapters) =
            (runFlat env cf total ch.lessons idx c).lessons ++
              flatLessons (runChapters env cf total rest
                (runFlat env cf total ch.lessons idx c).idx
                (runFlat env cf total ch.lessons idx c).completed).chapters := by
          simp [flatLessons]
        rw [this, h1]
      · rw [h5]

theorem buildLessons_length (ci : Nat) : ∀ (li : Nat) (cards : List LessonCardEl),
    (buildLessons ci li cards).length = cards.length := by
  intro li cards
  induction cards generalizing li with
  | nil => rfl
  | cons card rest ih => simp [buildLessons, ih]

theorem flatLessons_cons (ch : ChapterRes) (rest : List ChapterRes) :
    flatLessons (ch :: rest) = ch.lessons ++ flatLessons rest := by
  simp [flatLessons]

theorem flatLessons_buildChaptersAux : ∀ (elems : List ChapterElem) (ci : Nat),
    (flatLessons (buildChaptersAux ci elems)).length =
      (elems.map (fun ch => ch.cards.length)).sum := by
  intro elems
  induction elems with
  | nil => intro ci; rfl
  | cons ch rest ih =>
    intro ci
    simp [buildChaptersAux, flatLessons_cons, buildLessons_length, ih (ci + 1)]

theorem totalOf_eq_planLength (page : Page) :
    (flatLessons (buildChapters page.chapterElems)).length = totalOf page := by
  unfold totalOf buildChapters
  exact flatLessons_buildChaptersAux page.chapterElems 0

theorem buildLessons_fields (ci : Nat) : ∀ (li : Nat) (cards : List LessonCardEl)
    (x : LessonResult), x ∈ buildLessons ci li cards →
      x.content = none ∧ x.textContent = none ∧ x.plainTextContent = none ∧ x.error = none := by
  intro li cards
  induction cards generalizing li with
  | nil =>
    intro x hx
    simp [buildLessons] at hx
  | cons card rest ih =>
    intro x hx
    simp only [buildLessons] at hx
    rcases List.mem_cons.mp hx with hx | hx
    · subst hx
      exact ⟨rfl, rfl, rfl, rfl⟩
    · exact ih (li + 1) x hx

theorem buildChaptersAux_lessons : ∀ (elems : List ChapterElem) (ci : Nat)
    (ch : ChapterRes), ch ∈ buildChaptersAux ci elems →
      ∃ ci0 cards, ch.lessons = buildLessons ci0 0 cards := by
  intro elems
  induction elems with
  | nil =>
    intro ci ch h
    simp [buildChaptersAux] at h
  | cons e rest ih =>
    intro ci ch h
    simp only [buildChaptersAux] at h
    rcases List.mem_cons.mp h with h | h
    · subst h
      exact ⟨ci, e.cards, rfl⟩
    · exact ih (ci + 1) ch h

theorem plan_fields (elems : List ChapterElem) :
    ∀ x ∈ flatLessons (buildChapters elems),
      x.content = none ∧ x.textContent = none ∧ x.plainTextContent = none ∧ x.error = none := by
  intro x hx
  unfold flatLessons at hx
  rcases List.mem_flatten.mp hx with ⟨l, hl, hxl⟩
  rcases List.mem_map.mp hl with ⟨ch, hch, rfl⟩
  obtain ⟨ci0, cards, hless⟩ := buildChaptersAux_lessons elems 0 ch hch
  rw [hless] at hxl
  exact buildLessons_fields ci0 0 cards x hxl

theorem runBody_doc_chapters (page : Page) (env : Nat → Outcome) (cf : Option Nat) :
    (runBody page env cf).doc.chapters =
      (runChapters env cf (totalOf page) (buildChapters page.chapterElems) 0 0).chapters := rfl

theorem runBody_doc_cancelled (page : Page) (env : Nat → Outcome) (cf : Option Nat) :
    (runBody page env cf).doc.cancelled =
      (runChapters env cf (totalOf page) (buildChapters page.chapterElems) 0 0).cancelled := rfl

theorem runBody_completed (page : Page) (env : Nat → Outcome) (cf : Option Nat) :
    (runBody page env cf).completed =
      (runChapters env cf (totalOf page) (buildChapters page.chapterElems) 0 0).completed := rfl

theorem runBody_events (page : Page) (env : Nat → Outcome) (cf : Option Nat) :
    (runBody page env cf).events =
      Event.init (totalOf page) ::
        (runChapters env cf (totalOf page) (buildChapters page.chapterElems) 0 0).events ++
        (if (runChapters env cf (totalOf page) (buildChapters page.chapterElems) 0 0).cancelled
         then []
         else [Event.doneMsg
           (runChapters env cf (totalOf page) (buildChapters page.chapterElems) 0 0).completed
           (totalOf page)]) := rfl

theorem clickThrough_ok {page : Page} (env : Nat → Outcome) (cf : Option Nat)
    (hne : page.chapterElems ≠ []) :
    clickThroughAndScrapeCourse page env cf = .ok (runBody page env cf) := by
  have h : ¬page.chapterElems.isEmpty = true := by
    simp only [List.isEmpty_iff]
    exact hne
  unfold clickThroughAndScrapeCourse
  rw [if_neg h]

/-- C9: when zero chapter containers are resolvable at plan-build time, the
run raises the fatal no-chapters error immediately and produces nothing (no
plan, no events — the interaction loop never starts); when at least one
chapter container resolves, the run always returns a result document,
whatever the per-lesson outcomes are — no other resolution failure aborts
the run. -/
theorem no_chapters_is_the_only_fatal_failure :
    (∀ (page : Page) (env : Nat → Outcome) (cf : Option Nat), page.chapterElems = [] →
      clickThroughAndScrapeCourse page env cf = .error fatalNoChapters) ∧
    (∀ (page : Page) (env : Nat → Outcome) (cf : Option Nat), page.chapterElems ≠ [] →
      clickThroughAndScrapeCourse page env cf = .ok (runBody page env cf)) := by
  constructor
  · intro page env cf h
    have hemp : page.chapterElems.isEmpty = true := by
      rw [h]
      rfl
    unfold clickThroughAndScrapeCourse
    rw [if_pos hemp]
  · intro page env cf h
    exact clickThrough_ok env cf h

/-- Witness for C9: a page with zero chapter containers aborts with the fatal
error; a page with one chapter runs to a result document even though every
lesson fails to locate. -/
theorem no_chapters_is_the_only_fatal_failure_witness :
    clickThroughAndScrapeCourse emptyPage locateFailEnv none = .error fatalNoChapters ∧
    clickThroughAndScrapeCourse onePage locateFailEnv none =
      .ok (runBody onePage locateFailEnv none) :=
  ⟨no_chapters_is_the_only_fatal_failure.1 emptyPage locateFailEnv none rfl,
   no_chapters_is_the_only_fatal_failure.2 onePage locateFailEnv none (by decide)⟩

/-- C1: if the cancellation flag becomes set before lesson k's iteration
begins (and lesson k exists), the loop stops at that boundary: the run
returns a document with cancelled = true, every lesson before k carries the
result of its own iteration (completed lessons retain their extracted
content), every lesson from k onward is untouched (content fields null, no
error), the completed counter counts exactly the completions among lessons
0..k-1, and the cancellation message carrying that count is emitted. -/
theorem cancellation_stops_at_lesson_boundary (page : Page) (env : Nat → Outcome) (k : Nat)
    (hk : k < totalOf page) :
    clickThroughAndScrapeCourse page env (some k) = .ok (runBody page env (some k)) ∧
    (runBody page env (some k)).doc.cancelled = true ∧
    (∀ j, j < k →
      (flatLessons (runBody page env (some k)).doc.chapters)[j]? =
        ((flatLessons (buildChapters page.chapterElems))[j]?).map (lessonUpdate (env j))) ∧
    (∀ j, k ≤ j →
      (flatLessons (runBody page env (some k)).doc.chapters)[j]? =
        (flatLessons (buildChapters page.chapterElems))[j]?) ∧
    (∀ j x, k ≤ j → (flatLessons (runBody page env (some k)).doc.chapters)[j]? = some x →
      x.content = none ∧ x.textContent = none ∧ x.plainTextContent = none ∧ x.error = none) ∧
    (runBody page env (some k)).completed = completedCount env 0 k ∧
    Event.cancelledMsg (runBody page env (some k)).completed (totalOf page) ∈
      (runBody page env (some k)).events := by
  have hplanlen := totalOf_eq_planLength page
  have hne : page.chapterElems ≠ [] := by
    intro h
    unfold totalOf at hk
    rw [h] at hk
    simp at hk
  have hplan_ne : flatLessons (buildChapters page.chapterElems) ≠ [] := by
    intro h
    rw [h] at hplanlen
    simp only [List.length_nil] at hplanlen
    omega
  obtain ⟨hflat, hidx, hcomp, hcanc, hevts⟩ :=
    runChapters_eq_runFlat env (some k) (totalOf page) (buildChapters page.chapterElems) 0 0
  refine ⟨clickThrough_ok env (some k) hne, ?_, ?_, ?_, ?_, ?_, ?_⟩
  · rw [runBody_doc_cancelled, hcanc]
    refine runFlat_some_cancelled env k (totalOf page) _ 0 0 hplan_ne ?_
    rw [hplanlen]
    omega
  · intro j hj
    rw [runBody_doc_chapters, hflat]
    have h := runFlat_getElem_processed env (some k) (totalOf page)
      (flatLessons (buildChapters page.chapterElems)) 0 0 j
      (fun i hi => checkCancel_some_false (by omega))
    simpa using h
  · intro j hj
    rw [runBody_doc_chapters, hflat]
    exact runFlat_getElem_untouched env k (totalOf page) _ 0 0 j (by omega)
  · intro j x hj hx
    rw [runBody_doc_chapters, hflat,
      runFlat_getElem_untouched env k (totalOf page) _ 0 0 j (by omega)] at hx
    exact plan_fields page.chapterElems x (List.getElem?_mem hx)
  · rw [runBody_completed, hcomp, runFlat_some_completed]
    have hmin : min (flatLessons (buildChapters page.chapterElems)).length (k - 0) = k := by
      rw [hplanlen]
      omega
    rw [hmin]
    omega
  · rw [runBody_events, runBody_completed, hevts, hcomp]
    have hmem := runFlat_cancel_event env k (totalOf page)
      (flatLessons (buildChapters page.chapterElems)) 0 0 hplan_ne
      (by rw [hplanlen]; omega)
    exact List.mem_cons_of_mem _ (List.mem_append_left _ hmem)

/-- Witness for C1 — the spec's concrete scenario: cancellation requested
before lesson 3 of 5 (flag set from check index 2 on) yields cancelled=true,
lessons 1–2 populated with their extracted content, lesson 3 untouched, and
a completed count of 2. -/
theorem cancellation_stops_at_lesson_boundary_witness :
    (2 : Nat) < totalOf scenarioPage ∧
    (runBody scenarioPage scenarioEnv (some 2)).doc.cancelled = true ∧
    (runBody scenarioPage scenarioEnv (some 2)).completed = 2 ∧
    ((flatLessons (runBody scenarioPage scenarioEnv (some 2)).doc.chapters)[1]?).map
      (fun x => x.content) = some (some (strC "<p>body</p>")) ∧
    ((flatLessons (runBody scenarioPage scenarioEnv (some 2)).doc.chapters)[2]?).map
      (fun x => x.content) = some none := by
  obtain ⟨-, hcanc, -, -, -, hcomp, -⟩ :=
    cancellation_stops_at_lesson_boundary scenarioPage scenarioEnv 2 (by decide)
  refine ⟨by decide, hcanc, ?_, by decide, by decide⟩
  rw [hcomp]
  decide

/-- Counterexample to C2 as stated: on a run whose single lesson fails to
locate, the lesson's iteration records the error but NO progress message is
emitted at all — the locate-failure and timeout paths `continue` before the
progress message is sent. -/
theorem progress_event_missing_on_locate_failure :
    clickThroughAndScrapeCourse onePage locateFailEnv none =
      .ok (runBody onePage locateFailEnv none) ∧
    ((flatLessons (runBody onePage locateFailEnv none).doc.chapters)[0]?).map
      (fun x => x.error) = some (some (strC "Could not find lesson card in DOM")) ∧
    (runBody onePage locateFailEnv none).events.countP isProgressEvent = 0 := by
  refine ⟨clickThrough_ok locateFailEnv none (by decide), by decide, by decide⟩

/-- C2 amended: a progress event (carrying the incremented completed count,
the total count and the lesson title) is emitted for exactly the lessons
whose iteration reaches the extraction step (extraction success or
extraction failure); lessons that fail to locate, time out waiting for the
editor, or throw emit no progress event. -/
theorem progress_events_iff_extraction (page : Page) (env : Nat → Outcome)
    (hne : page.chapterElems ≠ []) :
    clickThroughAndScrapeCourse page env none = .ok (runBody page env none) ∧
    (runBody page env none).events.countP isProgressEvent =
      completedCount env 0 (totalOf page) ∧
    (∀ j x, (flatLessons (buildChapters page.chapterElems))[j]? = some x →
      outcomeCompletes (env j) = true →
      Event.progress (completedCount env 0 (j + 1)) (totalOf page) x.title ∈
        (runBody page env none).events) := by
  obtain ⟨hflat, hidx, hcomp, hcanc, hevts⟩ :=
    runChapters_eq_runFlat env none (totalOf page) (buildChapters page.chapterElems) 0 0
  refine ⟨clickThrough_ok env none hne, ?_, ?_⟩
  · rw [runBody_events, hevts, hcanc,
      runFlat_none_cancelled env (totalOf page) _ 0 0]
    simp only [Bool.false_eq_true, if_false, List.countP_cons, List.countP_append]
    rw [runFlat_none_countP env (totalOf page) _ 0 0, totalOf_eq_planLength page]
    simp [isProgressEvent]
  · intro j x hg ho
    rw [runBody_events, hevts]
    have hmem := runFlat_none_progress_mem env (totalOf page)
      (flatLessons (buildChapters page.chapterElems)) 0 0 j x hg (by simpa using ho)
    rw [Nat.zero_add] at hmem
    exact List.mem_cons_of_mem _ (List.mem_append_left _ hmem)

/-- Witness for the amended C2: on a two-lesson run whose first lesson fails
to locate and whose second extracts successfully, exactly one progress event
is emitted. -/
theorem progress_events_iff_extraction_witness :
    twoPage.chapterElems ≠ [] ∧
    (runBody twoPage mixedEnv none).events.countP isProgressEvent =
      completedCount mixedEnv 0 (totalOf twoPage) ∧
    (runBody twoPage mixedEnv none).events.countP isProgressEvent = 1 := by
  obtain ⟨-, hcount, -⟩ := progress_events_iff_extraction twoPage mixedEnv (by decide)
  exact ⟨by decide, hcount, by decide⟩

/-- C5: a lesson whose load-wait times out gets its error field set and its
content fields left null, and the loop continues: with no cancellation, the
run returns a document in which EVERY plan lesson carries the result of its
own iteration — no per-lesson failure (locate, timeout, extraction, or even
a thrown exception) ever aborts the run. -/
theorem per_lesson_failure_never_aborts (page : Page) (env : Nat → Outcome)
    (hne : page.chapterElems ≠ []) :
    clickThroughAndScrapeCourse page env none = .ok (runBody page env none) ∧
    (runBody page env none).doc.cancelled = false ∧
    (∀ j, (flatLessons (runBody page env none).doc.chapters)[j]? =
      ((flatLessons (buildChapters page.chapterElems))[j]?).map (lessonUpdate (env j))) ∧
    (∀ j x, env j = .loadTimeout →
      (flatLessons (runBody page env none).doc.chapters)[j]? = some x →
      x.error = some (strC "Lesson did not load in editor panel (timeout)") ∧
      x.content = none ∧ x.textContent = none ∧ x.plainTextContent = none) := by
  obtain ⟨hflat, hidx, hcomp, hcanc, hevts⟩ :=
    runChapters_eq_runFlat env none (totalOf page) (buildChapters page.chapterElems) 0 0
  have hproc : ∀ j, (flatLessons (runBody page env none).doc.chapters)[j]? =
      ((flatLessons (buildChapters page.chapterElems))[j]?).map (lessonUpdate (env j)) := by
    intro j
    rw [runBody_doc_chapters, hflat]
    have h := runFlat_getElem_processed env none (totalOf page)
      (flatLessons (buildChapters page.chapterElems)) 0 0 j (fun i _ => checkCancel_none i)
    simpa using h
  refine ⟨clickThrough_ok env none hne, ?_, hproc, ?_⟩
  · rw [runBody_doc_cancelled, hcanc]
    exact runFlat_none_cancelled env (totalOf page) _ 0 0
  · intro j x htm hx
    rw [hproc j, htm] at hx
    rcases hplan : (flatLessons (buildChapters page.chapterElems))[j]? with _ | x0
    · rw [hplan] at hx
      cases hx
    · rw [hplan] at hx
      simp only [Option.map_some'] at hx
      injection hx with hx
      subst hx
      exact ⟨rfl, rfl, rfl, rfl⟩

/-- Witness for C5: a two-lesson run whose first lesson times out records the
timeout error on lesson 1 with null content while lesson 2 still extracts. -/
theorem per_lesson_failure_never_aborts_witness :
    twoPage.chapterElems ≠ [] ∧
    clickThroughAndScrapeCourse twoPage timeoutEnv none =
      .ok (runBody twoPage timeoutEnv none) ∧
    ((flatLessons (runBody twoPage timeoutEnv none).doc.chapters)[0]?).map (fun x => x.error) =
      some (some (strC "Lesson did not load in editor panel (timeout)")) ∧
    ((flatLessons (runBody twoPage timeoutEnv none).doc.chapters)[1]?).map (fun x => x.content) =
      some (some (strC "x")) := by
  obtain ⟨hok, -, -, -⟩ := per_lesson_failure_never_aborts twoPage timeoutEnv (by decide)
  exact ⟨by decide, hok, by decide, by decide⟩

end ThinkificScraper
